import Mathlib

/-!
Verification development for the Nebraska DHHS child-care roster parser
(`parse_childcare_roster.py`, validated by `test_parse_consistency.py`).

Strings are modelled as `List Char`; Python regular expressions over ASCII
text are translated into executable functional matchers that reproduce the
leftmost-match / greedy / lazy semantics of the specific patterns used by the
source (`\d`, `\s`, `\w`, `[A-Za-z]`, `[A-Z]` are read as their ASCII
character classes, which is what the roster text exercises).
-/

namespace Roster

/-- A line of text, as the Python code sees it after `str.split('\n')`. -/
abbrev Line := List Char

/-- ASCII whitespace, the characters matched by Python's `\s` (and stripped
by `str.strip()`): space, tab, newline, carriage return, vertical tab,
form feed. -/
def isSpaceChar (c : Char) : Bool :=
  c = ' ' || c = '\t' || c = '\n' || c = '\r' || c.val = 11 || c.val = 12

/-- Python's `\w` word characters: letters, digits, underscore. -/
def isWordChar (c : Char) : Bool :=
  c.isAlpha || c.isDigit || c = '_'

/-- `true` when the list is empty or starts with a non-word character; this is
the `\b` boundary test on the text that follows a match ending in a word
character. -/
def headNonWord (s : Line) : Bool :=
  match s with
  | [] => true
  | c :: _ => !isWordChar c

/-- Remove a trailing run of whitespace (the right half of `str.strip()`). -/
def dropTrailingWs (s : Line) : Line :=
  (s.reverse.dropWhile isSpaceChar).reverse

/-- Python's `str.strip()`. -/
def pstrip (s : Line) : Line :=
  dropTrailingWs (s.dropWhile isSpaceChar)

/-- Case-insensitive prefix test (Python `re.IGNORECASE` on ASCII letters). -/
def ciStartsWith (p s : Line) : Bool :=
  (p.map Char.toLower).isPrefixOf (s.map Char.toLower)

/-- Substring containment, Python's `pat in s`. -/
def containsSub (pat : Line) : Line → Bool
  | [] => pat.isPrefixOf []
  | c :: rest => pat.isPrefixOf (c :: rest) || containsSub pat rest

/-- Try a matcher at every position of the line, left to right, returning the
first success: the position scan performed by `re.search`. -/
def scanFor {α : Type} (f : Line → Option α) : Line → Option α
  | [] => f []
  | c :: rest =>
    match f (c :: rest) with
    | some v => some v
    | none => scanFor f rest

/-- Position scan for patterns that open with `\b` followed by a word
character: the matcher is attempted only at positions whose preceding
character is not a word character (`w` carries whether the previous character
was one; at the start of the line it is `false`). -/
def scanWB {α : Type} (f : Line → Option α) : Bool → Line → Option α
  | _, [] => none
  | w, c :: rest =>
    match (if w then none else f (c :: rest)) with
    | some v => some v
    | none => scanWB f (isWordChar c) rest

/-- `\d+\b` at the head of `s`: a maximal nonempty digit run followed by a
word boundary; returns the digits. -/
def digitsThenBoundary (s : Line) : Option Line :=
  let ds := s.takeWhile Char.isDigit
  if ds.isEmpty then none
  else if headNonWord (s.dropWhile Char.isDigit) then some ds else none

/-- One alternative `<pre>\d+\b` of the license-number pattern, matched at the
head of `s`. -/
def tryLicPre (p : Line) (s : Line) : Option Line :=
  if p.isPrefixOf s then
    match digitsThenBoundary (s.drop p.length) with
    | some ds => some (p ++ ds)
    | none => none
  else none

/-- The alternation `(FII?\d+|CCC\d+|PRE\d+|SAOC\d+)\b` matched at the head of
`s`, alternatives tried in the pattern's order (`FII?` greedy: `FII` before
`FI`). -/
def licenseAt (s : Line) : Option Line :=
  match tryLicPre ("FII".toList) s with
  | some t => some t
  | none =>
  match tryLicPre ("FI".toList) s with
  | some t => some t
  | none =>
  match tryLicPre ("CCC".toList) s with
  | some t => some t
  | none =>
  match tryLicPre ("PRE".toList) s with
  | some t => some t
  | none => tryLicPre ("SAOC".toList) s

/-- `extract_license_number`: first `\b(FII?\d+|CCC\d+|PRE\d+|SAOC\d+)\b`
match in the text, or `''`. -/
def extract_license_number (s : Line) : Line :=
  (scanWB licenseAt false s).getD []

/-- `Capacity:\s*(\d+)` matched at the head of `s`. -/
def capacityAt (s : Line) : Option Line :=
  if ("Capacity:".toList).isPrefixOf s then
    let r := (s.drop 9).dropWhile isSpaceChar
    let ds := r.takeWhile Char.isDigit
    if ds.isEmpty then none else some ds
  else none

/-- `extract_capacity`: digits of the first `Capacity:\s*(\d+)` match. -/
def extract_capacity (s : Line) : Line :=
  (scanFor capacityAt s).getD []

/-- `Days of Week Open:\s*([A-Z]+)` matched at the head of `s`. -/
def daysAt (s : Line) : Option Line :=
  if ("Days of Week Open:".toList).isPrefixOf s then
    let r := (s.drop 18).dropWhile isSpaceChar
    let us := r.takeWhile Char.isUpper
    if us.isEmpty then none else some us
  else none

/-- `extract_days`: letters of the first `Days of Week Open:\s*([A-Z]+)`
match. -/
def extract_days (s : Line) : Line :=
  (scanFor daysAt s).getD []

/-- `Ages:\s*(.+?)(?:\s*$)` matched at the head of `s`, already composed with
the `.strip()` the caller applies to the group: the group is the text after
`Ages:` with surrounding whitespace trimmed, and when only whitespace follows
`Ages:` the lazy group backtracks onto a single whitespace character, which
strips to `''`.  The pattern needs at least one character after `Ages:`. -/
def agesAt (s : Line) : Option Line :=
  if ("Ages:".toList).isPrefixOf s then
    let r := s.drop 5
    if r.isEmpty then none
    else
      let a := r.dropWhile isSpaceChar
      if a.isEmpty then some [] else some (dropTrailingWs a)
  else none

/-- `extract_ages` (with its trailing `.strip()`). -/
def extract_ages (s : Line) : Line :=
  (scanFor agesAt s).getD []

/-- `Hours:\s*(\d{4})\s*To\s*(\d{4})` matched at the head of `s`, returning
the rebuilt `'{g1} To {g2}'`. -/
def hoursAt (s : Line) : Option Line :=
  if ("Hours:".toList).isPrefixOf s then
    let r := (s.drop 6).dropWhile isSpaceChar
    let d1 := r.take 4
    if d1.length = 4 && d1.all Char.isDigit then
      let r2 := (r.drop 4).dropWhile isSpaceChar
      if ("To".toList).isPrefixOf r2 then
        let r3 := (r2.drop 2).dropWhile isSpaceChar
        let d2 := r3.take 4
        if d2.length = 4 && d2.all Char.isDigit then
          some (d1 ++ (" To ".toList) ++ d2)
        else none
      else none
    else none
  else none

/-- `extract_hours`. -/
def extract_hours (s : Line) : Line :=
  (scanFor hoursAt s).getD []

/-- `extract_phone`: `re.match(r'^\((\d{3})\)\s*(\d{3})-?(\d{4})', text)`,
anchored at the start of the line, rebuilt as `'({g1}) {g2}-{g3}'`. -/
def extract_phone (s : Line) : Line :=
  match s with
  | '(' :: a :: b :: c :: ')' :: rest =>
    if a.isDigit && b.isDigit && c.isDigit then
      match rest.dropWhile isSpaceChar with
      | d :: e :: g :: r3 =>
        if d.isDigit && e.isDigit && g.isDigit then
          match (match r3 with | '-' :: t => t | _ => r3) with
          | h :: i :: j :: k :: _ =>
            if h.isDigit && i.isDigit && j.isDigit && k.isDigit then
              ['(', a, b, c, ')', ' ', d, e, g, '-', h, i, j, k]
            else []
          | _ => []
        else []
      | _ => []
    else []
  | _ => []

/-- `(\d{2}/\d{2}/\d{4})\b` matched at the head of `s` (the opening `\b` is
handled by `scanWB`). -/
def dateAt (s : Line) : Option Line :=
  match s with
  | a :: b :: s1 :: c :: d :: s2 :: e :: g :: h :: i :: rest =>
    if a.isDigit && b.isDigit && s1 = '/' && c.isDigit && d.isDigit &&
        s2 = '/' && e.isDigit && g.isDigit && h.isDigit && i.isDigit &&
        headNonWord rest then
      some [a, b, '/', c, d, '/', e, g, h, i]
    else none
  | _ => none

/-- `extract_effective_date`: first `\b(\d{2}/\d{2}/\d{4})\b` match. -/
def extract_effective_date (s : Line) : Line :=
  (scanWB dateAt false s).getD []

/-- The character class `[A-Za-z\s\.]` of the city pattern. -/
def cityClassChar (c : Char) : Bool :=
  c.isAlpha || isSpaceChar c || c = '.'

/-- `\s+NE\s+(\d{5})\b` matched at the head of `s`; returns the zip digits. -/
def cityTail (s : Line) : Option Line :=
  if (s.takeWhile isSpaceChar).isEmpty then none
  else
    let r := s.dropWhile isSpaceChar
    if ("NE".toList).isPrefixOf r then
      let r2 := r.drop 2
      if (r2.takeWhile isSpaceChar).isEmpty then none
      else
        let r3 := r2.dropWhile isSpaceChar
        let ds := r3.take 5
        if ds.length = 5 && ds.all Char.isDigit && headNonWord (r3.drop 5) then
          some ds
        else none
    else none

/-- `([A-Za-z][A-Za-z\s\.]{0,30}?)\s+NE\s+(\d{5})\b` matched at the head of
`s` (opening `\b` handled by `scanWB`); the lazy `{0,30}?` tries the shortest
body first.  Returns `(group1, zip)`. -/
def cityAt (s : Line) : Option (Line × Line) :=
  match s with
  | [] => none
  | c :: rest =>
    if c.isAlpha then
      (List.range 31).findSome? fun k =>
        let body := rest.take k
        if body.length = k && body.all cityClassChar then
          match cityTail (rest.drop k) with
          | some z => some (c :: body, z)
          | none => none
        else none
    else none

/-- One pass of `re.sub(r'\bNEBRASKA\b', '', city, flags=re.IGNORECASE)` with
explicit fuel (each step either keeps one character or drops eight, so
`s.length` fuel suffices); `w` tracks whether the previous character of the
original string was a word character. -/
def removeNebraskaF : Nat → Bool → Line → Line
  | 0, _, s => s
  | _ + 1, _, [] => []
  | fuel + 1, w, c :: rest =>
    if !w && ciStartsWith ("NEBRASKA".toList) (c :: rest) &&
        headNonWord ((c :: rest).drop 8) then
      removeNebraskaF fuel true ((c :: rest).drop 8)
    else c :: removeNebraskaF fuel (isWordChar c) rest

/-- `re.sub(r'\bNEBRASKA\b', '', city, flags=re.IGNORECASE)`. -/
def removeNebraska (s : Line) : Line :=
  removeNebraskaF s.length false s

/-- `extract_city_state_zip`: search for the city pattern, strip the city,
erase embedded `NEBRASKA`, and return `('', '', '')` when the surviving city
text is empty. -/
def extract_city_state_zip (s : Line) : Line × Line × Line :=
  match scanWB cityAt false s with
  | some (g1, z) =>
    let city := pstrip (removeNebraska (pstrip g1))
    if city.isEmpty then ([], [], []) else (city, "NE".toList, z)
  | none => ([], [], [])

/-- `FACILITY_TYPES`, in the order the source lists them. -/
def FACILITY_TYPES : List Line :=
  [ "Family Child Care Home II".toList,
    "Family Child Care Home I".toList,
    "Child Care Center".toList,
    "School-Age-Only Child Care Center".toList,
    "Preschool".toList ]

/-- `extract_facility_type`: first facility-type string contained in the
text, in list order. -/
def extract_facility_type (s : Line) : Line :=
  match FACILITY_TYPES.find? (fun t => containsSub t s) with
  | some t => t
  | none => []

/-- `<escaped prefix>\s*([YN])?` matched at the head of `s`: always succeeds
once the literal is present; the optional group yields `''` when no `Y`/`N`
follows the whitespace. -/
def ynAt (p : Line) (s : Line) : Option Line :=
  if p.isPrefixOf s then
    match (s.drop p.length).dropWhile isSpaceChar with
    | c :: _ => if c = 'Y' || c = 'N' then some [c] else some []
    | [] => some []
  else none

/-- `extract_yn_value(line, prefix)`: guarded by `prefix in line`, then a
search whose leftmost match sits at the first occurrence of the literal. -/
def extract_yn_value (s p : Line) : Line :=
  if containsSub p s then (scanFor (ynAt p) s).getD [] else []

/-- `Step Up To Quality:\s*(\d+)?` matched at the head of `s`. -/
def stepUpAt (s : Line) : Option Line :=
  if ("Step Up To Quality:".toList).isPrefixOf s then
    some (((s.drop 19).dropWhile isSpaceChar).takeWhile Char.isDigit)
  else none

/-- `extract_step_up_quality`. -/
def extract_step_up_quality (s : Line) : Line :=
  (scanFor stepUpAt s).getD []

/-- `extract_accredited`: `Accredited\?\s*([YN])?`. -/
def extract_accredited (s : Line) : Line :=
  (scanFor (ynAt ("Accredited?".toList)) s).getD []

/-- One substitution `re.sub(r'\s+<word>\s*$', '', s)` (case-insensitive when
`ci`).  The `$`-anchored pattern matches at most once: `word` must sit at the
end of `s` modulo trailing whitespace, preceded by at least one whitespace
character, and the leftmost match start is the beginning of that maximal
whitespace run. -/
def subTrailing (word : Line) (ci : Bool) (s : Line) : Line :=
  let t := dropTrailingWs s
  let ok := if ci then (word.map Char.toLower).isSuffixOf (t.map Char.toLower)
            else word.isSuffixOf t
  if ok then
    let u := t.take (t.length - word.length)
    let v := dropTrailingWs u
    if v.length < u.length then v else s
  else s

/-- `clean_provider_name`: the four trailing-fragment substitutions followed
by `.strip()`. -/
def clean_provider_name (s : Line) : Line :=
  let s1 := subTrailing ("owned by".toList) true s
  let s2 := subTrailing ("OWNED BY".toList) false s1
  let s3 := subTrailing ("owned".toList) true s2
  let s4 := subTrailing ("ob".toList) true s3
  pstrip s4

/-- One provider record, the dictionary built by `parse_provider_block`
(`''` everywhere a field was not found). -/
structure Provider where
  downloadDate : Line
  zipCode : Line
  county : Line
  providerName : Line
  licenseNumber : Line
  licenseType : Line
  ownerName : Line
  effectiveDate : Line
  address : Line
  city : Line
  state : Line
  phone : Line
  capacity : Line
  ages : Line
  hours : Line
  daysOpen : Line
  currentlyAcceptsSubsidy : Line
  willingToAcceptSubsidy : Line
  doesNotAcceptSubsidy : Line
  stepUpQuality : Line
  accredited : Line
deriving DecidableEq, Repr

/-- Split off the text before the first occurrence of `tok` and the text
between the first and second occurrences (Python `s.split(tok)` gives
`parts[0]` and `parts[1]`); `none` when `tok` does not occur. -/
def splitOnceAux (tok : Line) : Line → Option (Line × Line)
  | [] => none
  | c :: rest =>
    if tok.isPrefixOf (c :: rest) then some ([], (c :: rest).drop tok.length)
    else
      match splitOnceAux tok rest with
      | some (b, a) => some (c :: b, a)
      | none => none

/-- `re.search(r'^(.+?)\s+owned by\s+', name_part, re.IGNORECASE)`: the lazy
group is the shortest nonempty head such that a whitespace run, the literal
`owned by` (case-insensitive) and at least one more whitespace character
follow.  Returns the group. -/
def ownedBySplit (s : Line) : Option Line :=
  (List.range (s.length + 1)).findSome? fun g =>
    if 1 ≤ g then
      let r := s.drop g
      if (r.takeWhile isSpaceChar).isEmpty then none
      else
        let r2 := r.dropWhile isSpaceChar
        if ciStartsWith ("owned by".toList) r2 &&
            (match r2.drop 8 with | c :: _ => isSpaceChar c | [] => false) then
          some (s.take g)
        else none
    else none

/-- `re.search(r'\s*Capacity:', after_license).start()`: index of the leftmost
match, which is the start of the maximal whitespace run directly preceding
the first `Capacity:` occurrence. -/
def capStartAux : Line → Option Nat
  | [] => none
  | c :: rest =>
    if ("Capacity:".toList).isPrefixOf ((c :: rest).dropWhile isSpaceChar) then
      some 0
    else
      match capStartAux rest with
      | some n => some (n + 1)
      | none => none

/-- The name/address half of the assembler: split line 1 on the extracted
license number; the cleaned name comes from the text before it (truncated at
an `owned by` boundary when present) and the address is the text between the
license number and the next `Capacity:`. -/
def line1Fields (line1 : Line) : Line × Line :=
  let lic := extract_license_number line1
  if lic.isEmpty then ([], [])
  else
    match splitOnceAux lic line1 with
    | none => ([], [])
    | some (before, after0) =>
      let after := match splitOnceAux lic after0 with
        | some (b, _) => b
        | none => after0
      let namePart := pstrip before
      let nm := match ownedBySplit namePart with
        | some g => clean_provider_name g
        | none => clean_provider_name namePart
      let addr := match capStartAux after with
        | some k => pstrip (after.take k)
        | none => []
      (nm, addr)

/-- `re.match(r'^(.+?)\s+' + eff_date, line).group(1).strip()`: the lazy
group is the shortest nonempty head followed by a whitespace run and the date
literal; `''` when there is no match. -/
def ownerFromLine (s d : Line) : Line :=
  match (List.range (s.length + 1)).findSome? (fun g =>
      if 1 ≤ g then
        let r := s.drop g
        if (r.takeWhile isSpaceChar).isEmpty then none
        else if d.isPrefixOf (r.dropWhile isSpaceChar) then
          some (pstrip (s.take g))
        else none
      else none) with
  | some o => o
  | none => []

/-- The effective-date loop: first line carrying a date gives both the date
and the owner name parsed from that same line. -/
def dateAndOwner (ls : List Line) : Line × Line :=
  match ls.findSome? (fun l =>
      let d := extract_effective_date l
      if d.isEmpty then none else some (d, ownerFromLine l d)) with
  | some p => p
  | none => ([], [])

/-- The `for line in lines: if not field: v := f line; if v: field := v`
loops: first nonempty extraction across the block's lines. -/
def firstNonEmpty (f : Line → Line) (ls : List Line) : Line :=
  match ls.findSome? (fun l =>
      let v := f l
      if v.isEmpty then none else some v) with
  | some v => v
  | none => []

/-- The subsidy-question loop: lines without the marker are not consulted,
and an unanswered question (`''`) leaves the field open for later lines. -/
def firstYN (p : Line) (ls : List Line) : Line :=
  firstNonEmpty (fun l => if containsSub p l then extract_yn_value l p else []) ls

/-- `parse_provider_block(lines, current_zip, current_county, download_date)`. -/
def parse_provider_block (lines : List Line) (currentZip currentCounty downloadDate : Line) :
    Provider :=
  if lines.isEmpty then
    { downloadDate := downloadDate, zipCode := currentZip, county := currentCounty,
      providerName := [], licenseNumber := [], licenseType := [], ownerName := [],
      effectiveDate := [], address := [], city := [], state := "NE".toList,
      phone := [], capacity := [], ages := [], hours := [], daysOpen := [],
      currentlyAcceptsSubsidy := [], willingToAcceptSubsidy := [],
      doesNotAcceptSubsidy := [], stepUpQuality := [], accredited := [] }
  else
    let line1 := lines.headD []
    let line2 := lines.getD 1 []
    let na := line1Fields line1
    let eo := dateAndOwner lines
    { downloadDate := downloadDate,
      zipCode := currentZip,
      county := currentCounty,
      providerName := na.1,
      licenseNumber := extract_license_number line1,
      licenseType := extract_facility_type line2,
      ownerName := eo.2,
      effectiveDate := eo.1,
      address := na.2,
      city := firstNonEmpty (fun l => (extract_city_state_zip l).1) lines,
      state := "NE".toList,
      phone := firstNonEmpty extract_phone lines,
      capacity := extract_capacity line1,
      ages := extract_ages line2,
      hours := firstNonEmpty extract_hours lines,
      daysOpen := extract_days line1,
      currentlyAcceptsSubsidy := firstYN ("Currently Accepts Subsidy?".toList) lines,
      willingToAcceptSubsidy := firstYN ("Willing To Accept Subsidy?".toList) lines,
      doesNotAcceptSubsidy := firstYN ("Does Not Accept Subsidy?".toList) lines,
      stepUpQuality := firstNonEmpty (fun l =>
        if containsSub ("Step Up To Quality:".toList) l then extract_step_up_quality l
        else []) lines,
      accredited := firstNonEmpty (fun l =>
        if containsSub ("Accredited?".toList) l then extract_accredited l
        else []) lines }

/-- `is_provider_start_line`: a license-number pattern match plus a literal
`Capacity:`. -/
def is_provider_start_line (s : Line) : Bool :=
  (scanWB licenseAt false s).isSome && containsSub ("Capacity:".toList) s

/-- `is_zip_header`: `re.match(r'^(\d{5})\s+([A-Za-z]+)\s*$', line)`, giving
the zip digits and the county letters. -/
def is_zip_header (s : Line) : Option (Line × Line) :=
  let ds := s.take 5
  if ds.length = 5 && ds.all Char.isDigit then
    let r := s.drop 5
    if (r.takeWhile isSpaceChar).isEmpty then none
    else
      let r2 := r.dropWhile isSpaceChar
      let ab := r2.takeWhile Char.isAlpha
      if ab.isEmpty then none
      else if (r2.dropWhile Char.isAlpha).all isSpaceChar then some (ds, ab)
      else none
  else none

/-- The fixed noise/header marker substrings of `extract_providers_from_pdf`. -/
def SKIP_MARKERS : List Line :=
  [ "CHILD CARE LICENSING ROSTER".toList,
    "Date of Printing:".toList,
    "ZIP CODE".toList,
    "PROVIDER NAME".toList,
    "OWNER NAME".toList,
    "PHONE NUMBER".toList ]

/-- A noise/header line: contains one of the marker substrings. -/
def isSkipLine (s : Line) : Bool :=
  SKIP_MARKERS.any (fun m => containsSub m s)

/-- A per-zip total line: `line.startswith('Total Number in Zip Code:')`. -/
def isTotalLine (s : Line) : Bool :=
  ("Total Number in Zip Code:".toList).isPrefixOf s

/-- The conditions that end collection of a provider block, in the source's
order. -/
def isBreakLine (s : Line) : Bool :=
  is_provider_start_line s || (is_zip_header s).isSome || isTotalLine s ||
    isSkipLine s

/-- The inner collection loop: gather continuation lines after a record-start
line until a break line or the hard cap of 10 block lines (`n` counts lines
already in the block); returns the collected lines and the remaining
stream. -/
def collectCont : List Line → Nat → List Line × List Line
  | [], _ => ([], [])
  | l :: rest, n =>
    if 10 ≤ n then ([], l :: rest)
    else if isBreakLine l then ([], l :: rest)
    else
      let p := collectCont rest (n + 1)
      (l :: p.1, p.2)

/-- The per-page dispatch loop of `extract_providers_from_pdf`, fuelled for
structural recursion (each step consumes at least one line, so `ls.length`
fuel is enough).  Returns the final zip/county context and the blocks handed
to the assembler, each tagged with the context current when it was opened. -/
def processLinesF : Nat → List Line → Line × Line → (Line × Line) × List ((Line × Line) × List Line)
  | 0, _, st => (st, [])
  | _ + 1, [], st => (st, [])
  | fuel + 1, l :: rest, st =>
    if isSkipLine l then processLinesF fuel rest st
    else
      match is_zip_header l with
      | some zc => processLinesF fuel rest zc
      | none =>
        if isTotalLine l then processLinesF fuel rest st
        else if is_provider_start_line l then
          let pr := collectCont rest 1
          let res := processLinesF fuel pr.2 st
          (res.1, (st, l :: pr.1) :: res.2)
        else processLinesF fuel rest st

/-- The per-page loop with adequate fuel. -/
def processLines (ls : List Line) (st : Line × Line) :
    (Line × Line) × List ((Line × Line) × List Line) :=
  processLinesF ls.length ls st

/-- Per-page line preparation:
`[l.strip() for l in text.split('\n') if l.strip()]`. -/
def prepPage (ls : List Line) : List Line :=
  (ls.map pstrip).filter (fun l => !l.isEmpty)

/-- The page loop: context threads from page to page; blocks accumulate in
order. -/
def extractBlocksAux : List (List Line) → Line × Line → List ((Line × Line) × List Line)
  | [], _ => []
  | pg :: rest, st =>
    let r := processLines (prepPage pg) st
    r.2 ++ extractBlocksAux rest r.1

/-- All blocks handed to `parse_provider_block` during one parse: the first
page is dropped (`pdf.pages[1:]`) and the context starts empty. -/
def extractBlocks (pages : List (List Line)) : List ((Line × Line) × List Line) :=
  extractBlocksAux (pages.drop 1) ([], [])

/-- `extract_providers_from_pdf(pdf_path, download_date)`, over the document
modelled as its pages' raw text lines: assemble every block and keep the
records with a name or a license number. -/
def extract_providers_from_pdf (pages : List (List Line)) (dd : Line) : List Provider :=
  (extractBlocks pages).filterMap fun cb =>
    let p := parse_provider_block cb.2 cb.1.1 cb.1.2 dd
    if p.providerName.isEmpty && p.licenseNumber.isEmpty then none else some p

/-! Validator (`test_parse_consistency.py`). -/

/-- `LICENSE_PATTERN`, one anchored alternative `^<pre>\d+$`. -/
def licFull (p s : Line) : Bool :=
  p.isPrefixOf s && !(s.drop p.length).isEmpty && (s.drop p.length).all Char.isDigit

/-- `LICENSE_PATTERN = re.compile(r'^(FII?\d+|CCC\d+|PRE\d+|SAOC\d+)$')` as a
full-string test. -/
def licenseValid (s : Line) : Bool :=
  licFull ("FII".toList) s || licFull ("FI".toList) s || licFull ("CCC".toList) s ||
    licFull ("PRE".toList) s || licFull ("SAOC".toList) s

/-- `PHONE_PATTERN = re.compile(r'^\(\d{3}\) \d{3}-\d{4}$')`. -/
def phoneValid : Line → Bool
  | ['(', a, b, c, ')', ' ', d, e, g, '-', h, i, j, k] =>
    a.isDigit && b.isDigit && c.isDigit && d.isDigit && e.isDigit && g.isDigit &&
      h.isDigit && i.isDigit && j.isDigit && k.isDigit
  | _ => false

/-- `DATE_PATTERN = re.compile(r'^\d{2}/\d{2}/\d{4}$')`. -/
def dateValid : Line → Bool
  | [a, b, '/', c, d, '/', e, g, h, i] =>
    a.isDigit && b.isDigit && c.isDigit && d.isDigit && e.isDigit && g.isDigit &&
      h.isDigit && i.isDigit
  | _ => false

/-- `ZIP_PATTERN = re.compile(r'^\d{5}$')`. -/
def zipValid (s : Line) : Bool :=
  s.length = 5 && s.all Char.isDigit

/-- `VALID_LICENSE_TYPES`. -/
def VALID_LICENSE_TYPES : List Line :=
  [ "Family Child Care Home I".toList,
    "Family Child Care Home II".toList,
    "Child Care Center".toList,
    "School-Age-Only Child Care Center".toList,
    "Preschool".toList ]

/-- `MIN_EXPECTED_PROVIDERS`. -/
def MIN_EXPECTED_PROVIDERS : Nat := 100

/-- The error diagnostics `test_data_quality` can add, as tags (the source
formats them into strings; the text does not affect pass/fail). -/
inductive QError where
  | volume
  | missingNames
  | missingLicenses
  | invalidLicenses
  | invalidPhones
  | invalidDates
  | invalidZips
deriving DecidableEq, Repr

/-- The warning diagnostics of `test_data_quality`, as tags. -/
inductive QWarn where
  | unknownLicenseType
  | missingNames
  | missingLicenses
  | invalidPhones
deriving DecidableEq, Repr

/-- `ConsistencyTestResult` as `test_data_quality` returns it: `passed` is
`True` until the first `add_error`. -/
structure QResult where
  passed : Bool
  errors : List QError
  warnings : List QWarn
deriving DecidableEq, Repr

/-- `test_data_quality(providers)`.  Counters mirror the source's loop; the
float percentage thresholds `pct > 5` and `pct > 10` (with
`pct = count / len * 100`) are modelled exactly as `100 * count > 5 * len`
and `100 * count > 10 * len`; errors and warnings appear in the source's
order. -/
def test_data_quality (ps : List Provider) : QResult :=
  let n := ps.length
  let volumeErrs : List QError :=
    if n < MIN_EXPECTED_PROVIDERS then [QError.volume] else []
  let missingNames := (ps.filter (fun p => p.providerName.isEmpty)).length
  let missingLics :=
    (ps.filter (fun p => p.licenseNumber.isEmpty)).length
  let invalidLics :=
    (ps.filter (fun p => !p.licenseNumber.isEmpty && !licenseValid p.licenseNumber)).length
  let unknownTypeWarns : List QWarn :=
    (ps.filter (fun p =>
        !p.licenseType.isEmpty && !VALID_LICENSE_TYPES.contains p.licenseType)).map
      (fun _ => QWarn.unknownLicenseType)
  let invalidPhones :=
    (ps.filter (fun p => !p.phone.isEmpty && !phoneValid p.phone)).length
  let invalidDates :=
    (ps.filter (fun p => !p.effectiveDate.isEmpty && !dateValid p.effectiveDate)).length
  let invalidZips :=
    (ps.filter (fun p => !p.zipCode.isEmpty && !zipValid p.zipCode)).length
  let nameErrs : List QError :=
    if 0 < missingNames && 100 * missingNames > 5 * n then [QError.missingNames] else []
  let nameWarns : List QWarn :=
    if 0 < missingNames && ¬(100 * missingNames > 5 * n) then [QWarn.missingNames] else []
  let licErrs : List QError :=
    if 0 < missingLics && 100 * missingLics > 5 * n then [QError.missingLicenses] else []
  let licWarns : List QWarn :=
    if 0 < missingLics && ¬(100 * missingLics > 5 * n) then [QWarn.missingLicenses] else []
  let invLicErrs : List QError :=
    if 0 < invalidLics then [QError.invalidLicenses] else []
  let phoneErrs : List QError :=
    if 0 < invalidPhones && 100 * invalidPhones > 10 * n then [QError.invalidPhones] else []
  let phoneWarns : List QWarn :=
    if 0 < invalidPhones && ¬(100 * invalidPhones > 10 * n) then [QWarn.invalidPhones] else []
  let dateErrs : List QError := if 0 < invalidDates then [QError.invalidDates] else []
  let zipErrs : List QError := if 0 < invalidZips then [QError.invalidZips] else []
  let errs := volumeErrs ++ nameErrs ++ licErrs ++ invLicErrs ++ phoneErrs ++
    dateErrs ++ zipErrs
  let warns := unknownTypeWarns ++ nameWarns ++ licWarns ++ phoneWarns
  { passed := errs.isEmpty, errors := errs, warnings := warns }

/-! Specification-side definitions (phrased from the spec's words, for
comparison with the code-side definitions above). -/

/-- The `\b` test for the text to the left of a match that begins with a word
character: fine at the very start of the line (`w` is whether the character
before `a` was a word character, `false` at line start), otherwise the last
character of `a` must not be a word character. -/
def lastNonWordOk (w : Bool) (a : Line) : Bool :=
  match a.getLast? with
  | none => !w
  | some c => !isWordChar c

/-- The five license prefix families named by the spec. -/
def LicensePrefixes : List Line :=
  ["FI".toList, "FII".toList, "CCC".toList, "PRE".toList, "SAOC".toList]

/-- Spec wording: a license-number token is one of the prefix families
followed by one or more digits. -/
def SpecLicenseToken (t : Line) : Prop :=
  ∃ p ds, p ∈ LicensePrefixes ∧ t = p ++ ds ∧ ds ≠ [] ∧ ds.all Char.isDigit = true

/-- Spec wording: the line contains a license-number token as a whole word
(non-word characters, or nothing, on each side). -/
def SpecWholeWordLicense (s : Line) : Prop :=
  ∃ a t b, s = a ++ t ++ b ∧ SpecLicenseToken t ∧ lastNonWordOk false a = true ∧
    headNonWord b = true

/-- Spec-side context update for one classified line (noise has priority over
the zip-header role, as in §4.1 of the spec): a zip-county header installs
its zip/county, every other line leaves the context alone. -/
def ctxStep (st : Line × Line) (l : Line) : Line × Line :=
  if isSkipLine l then st
  else
    match is_zip_header l with
    | some zc => zc
    | none => st

/-- Spec-side: the context after seeing a sequence of lines, i.e. the most
recent zip-county header among them (or the inherited context). -/
def ctxFold (st : Line × Line) (pre : List Line) : Line × Line :=
  pre.foldl ctxStep st

/-- Invariant satisfied by every zip context the segmenter can hold: empty,
or exactly five digits. -/
def zipOk (z : Line) : Bool :=
  z.isEmpty || zipValid z

/-- The name-cleanup still has one of the four trailing owner fragments to
remove (one of the substitutions would change the string). -/
def hasOwnerSuffix (s : Line) : Bool :=
  !(subTrailing ("owned by".toList) true s == s) ||
    !(subTrailing ("OWNED BY".toList) false s == s) ||
    !(subTrailing ("owned".toList) true s == s) ||
    !(subTrailing ("ob".toList) true s == s)

/-! Concrete inputs used by scenario theorems, counterexamples and
witnesses. -/

/-- The boundary-scenario line of the spec. -/
def sunnyLine : Line := "Sunny Days CCC9578 123 Main St Capacity: 10 MTWTHF".toList

/-- A continuation line (no license token, no `Capacity:`, no marker). -/
def contLine : Line := "Family Child Care Home I Ages: 6 WKS To 13 YRS".toList

/-- A second record-start line. -/
def happyLine : Line := "Happy Kids FI12640 456 Oak St Capacity: 8".toList

/-- A zip-county header line. -/
def zipHeaderLine : Line := "68002 Washington".toList

/-- A record-start line that also contains a noise marker substring. -/
def noisyStartLine : Line := "PROVIDER NAME CCC1 Capacity: 5".toList

/-- A two-page document (page 1 is skipped by the parser): a zip header
followed by two provider blocks on page 2. -/
def pagesA : List (List Line) := [[], [zipHeaderLine, sunnyLine, contLine, happyLine]]

/-- A document whose zip header and provider blocks sit on different pages. -/
def pagesB : List (List Line) := [[], [zipHeaderLine], [sunnyLine, contLine], [happyLine]]

/-- A document whose only candidate record line carries a noise marker. -/
def pagesNoisy : List (List Line) := [[], [noisyStartLine]]

/-- A minimal valid record for exercising the validator. -/
def goodProv : Provider :=
  { downloadDate := [], zipCode := [], county := [], providerName := "A".toList,
    licenseNumber := "CCC1".toList, licenseType := [], ownerName := [],
    effectiveDate := [], address := [], city := [], state := "NE".toList,
    phone := [], capacity := [], ages := [], hours := [], daysOpen := [],
    currentlyAcceptsSubsidy := [], willingToAcceptSubsidy := [],
    doesNotAcceptSubsidy := [], stepUpQuality := [], accredited := [] }

/-! ### Theorems -/

/-- `containsSub` is the substring relation. -/
theorem containsSub_infix_iff (pat s : Line) : containsSub pat s = true ↔ pat <:+: s := by
  induction s with
  | nil =>
    simp [containsSub, List.isPrefixOf_iff_prefix]
  | cons c rest ih =>
    simp only [containsSub, Bool.or_eq_true, List.isPrefixOf_iff_prefix, ih,
      List.infix_cons_iff]

/-- A digit is a word character. -/
theorem isWordChar_of_isDigit {c : Char} (h : c.isDigit = true) : isWordChar c = true := by
  simp [isWordChar, h]

/-- `takeWhile`/`dropWhile` on an append whose left half satisfies the
predicate everywhere and whose right half opens with a failing character. -/
theorem takeWhile_append_of (p : Char → Bool) (l r : Line) (hl : l.all p = true)
    (hr : ∀ c t, r = c :: t → p c = false) :
    (l ++ r).takeWhile p = l ∧ (l ++ r).dropWhile p = r := by
  induction l with
  | nil =>
    cases r with
    | nil => simp
    | cons c t => simp [List.takeWhile_cons, List.dropWhile_cons, hr c t rfl]
  | cons a l ih =>
    simp only [List.all_cons, Bool.and_eq_true] at hl
    have h2 := ih hl.2
    simp [List.takeWhile_cons, List.dropWhile_cons, hl.1, h2.1, h2.2]

/-- What a successful `tryLicPre` match tells us about the text. -/
theorem tryLicPre_some {p b t : Line} (h : tryLicPre p b = some t) :
    ∃ ds rest, t = p ++ ds ∧ b = p ++ ds ++ rest ∧ ds ≠ [] ∧
      ds.all Char.isDigit = true ∧ headNonWord rest = true := by
  unfold tryLicPre at h
  split at h
  case isTrue hp =>
    obtain ⟨s', hs⟩ := List.isPrefixOf_iff_prefix.mp hp
    subst hs
    rw [List.drop_left] at h
    split at h
    case h_1 ds heq =>
      obtain rfl : p ++ ds = t := Option.some.inj h
      simp only [digitsThenBoundary] at heq
      by_cases h1 : (s'.takeWhile Char.isDigit).isEmpty = true
      · simp [h1] at heq
      · by_cases h2 : headNonWord (s'.dropWhile Char.isDigit) = true
        · rw [if_neg h1, if_pos h2] at heq
          obtain rfl : s'.takeWhile Char.isDigit = ds := Option.some.inj heq
          refine ⟨s'.takeWhile Char.isDigit, s'.dropWhile Char.isDigit, rfl, ?_, ?_, ?_, h2⟩
          · rw [List.append_assoc, List.takeWhile_append_dropWhile]
          · simpa [List.isEmpty_iff] using h1
          · exact List.all_takeWhile
        · rw [if_neg h1, if_neg h2] at heq
          exact absurd heq (by simp)
    case h_2 => exact absurd h (by simp)
  · exact absurd h (by simp)

/-- Conversely, a prefix-family occurrence with digits and a right boundary
makes `tryLicPre` succeed. -/
theorem tryLicPre_of {p ds rest : Line} (hds : ds ≠ [])
    (hdig : ds.all Char.isDigit = true) (hb : headNonWord rest = true) :
    tryLicPre p (p ++ ds ++ rest) = some (p ++ ds) := by
  have hsplit := takeWhile_append_of Char.isDigit ds rest hdig
    (fun c t ht => by
      subst ht
      simp only [headNonWord, Bool.not_eq_true'] at hb
      cases hdc : c.isDigit
      · rfl
      · rw [isWordChar_of_isDigit hdc] at hb; exact absurd hb (by simp))
  unfold tryLicPre
  rw [List.append_assoc]
  have hpre : p.isPrefixOf (p ++ (ds ++ rest)) = true :=
    List.isPrefixOf_iff_prefix.mpr (List.prefix_append p (ds ++ rest))
  rw [hpre]
  simp only [if_true, List.drop_left]
  unfold digitsThenBoundary
  rw [hsplit.1, hsplit.2]
  simp [List.isEmpty_iff, hds, hb]

/-- A successful `licenseAt` match is a spec license token with a right-hand
word boundary. -/
theorem licenseAt_some {b t : Line} (h : licenseAt b = some t) :
    ∃ rest, b = t ++ rest ∧ SpecLicenseToken t ∧ headNonWord rest = true := by
  unfold licenseAt at h
  have mk : ∀ p : Line, p ∈ LicensePrefixes → ∀ t, tryLicPre p b = some t →
      ∃ rest, b = t ++ rest ∧ SpecLicenseToken t ∧ headNonWord rest = true := by
    intro p hp t' ht
    obtain ⟨ds, rest, h1, h2, h3, h4, h5⟩ := tryLicPre_some ht
    exact ⟨rest, by rw [h2, h1, List.append_assoc], ⟨p, ds, hp, h1, h3, h4⟩, h5⟩
  split at h
  case h_1 heq =>
    exact mk ("FII".toList) (by simp [LicensePrefixes]) t (by rw [heq, h])
  case h_2 =>
    split at h
    case h_1 heq =>
      exact mk ("FI".toList) (by simp [LicensePrefixes]) t (by rw [heq, h])
    case h_2 =>
      split at h
      case h_1 heq =>
        exact mk ("CCC".toList) (by simp [LicensePrefixes]) t (by rw [heq, h])
      case h_2 =>
        split at h
        case h_1 heq =>
          exact mk ("PRE".toList) (by simp [LicensePrefixes]) t (by rw [heq, h])
        case h_2 => exact mk ("SAOC".toList) (by simp [LicensePrefixes]) t h

theorem toList_FI : "FI".toList = ['F', 'I'] := rfl

theorem toList_FII : "FII".toList = ['F', 'I', 'I'] := rfl

theorem toList_CCC : "CCC".toList = ['C', 'C', 'C'] := rfl

theorem toList_PRE : "PRE".toList = ['P', 'R', 'E'] := rfl

theorem toList_SAOC : "SAOC".toList = ['S', 'A', 'O', 'C'] := rfl

theorem licenseAt_nil : licenseAt [] = none := rfl

/-- A spec license token with a right boundary at the head of the text makes
`licenseAt` succeed (catching the alternation's order: `FII` is attempted
before `FI`, and distinct first letters keep the other families apart). -/
theorem licenseAt_of {p ds rest : Line} (hp : p ∈ LicensePrefixes) (hds : ds ≠ [])
    (hdig : ds.all Char.isDigit = true) (hb : headNonWord rest = true) :
    (licenseAt (p ++ ds ++ rest)).isSome = true := by
  obtain ⟨d, ds', rfl⟩ := List.exists_cons_of_ne_nil hds
  have hd : d.isDigit = true := by
    simp only [List.all_cons, Bool.and_eq_true] at hdig
    exact hdig.1
  simp only [LicensePrefixes, List.mem_cons, List.mem_singleton,
    List.not_mem_nil, or_false] at hp
  rcases hp with hp | hp | hp | hp | hp
  · -- p = "FI": the FII alternative fails because the next character is a digit
    subst hp
    have hdI : ('I' == d) = false := by
      cases hE : ('I' == d)
      · rfl
      · have : 'I' = d := eq_of_beq hE
        rw [← this] at hd
        exact absurd hd (by decide)
    have h1 : tryLicPre ("FII".toList) (("FI".toList) ++ (d :: ds') ++ rest) = none := by
      unfold tryLicPre
      simp [toList_FII, toList_FI, List.isPrefixOf, hdI]
    simp only [licenseAt, h1, tryLicPre_of hds hdig hb]
    rfl
  · subst hp
    simp only [licenseAt, tryLicPre_of hds hdig hb]
    rfl
  · subst hp
    have h1 : tryLicPre ("FII".toList) (("CCC".toList) ++ (d :: ds') ++ rest) = none := by
      unfold tryLicPre
      simp [toList_FII, toList_CCC, List.isPrefixOf]
    have h2 : tryLicPre ("FI".toList) (("CCC".toList) ++ (d :: ds') ++ rest) = none := by
      unfold tryLicPre
      simp [toList_FI, toList_CCC, List.isPrefixOf]
    simp only [licenseAt, h1, h2, tryLicPre_of hds hdig hb]
    rfl
  · subst hp
    have h1 : tryLicPre ("FII".toList) (("PRE".toList) ++ (d :: ds') ++ rest) = none := by
      unfold tryLicPre
      simp [toList_FII, toList_PRE, List.isPrefixOf]
    have h2 : tryLicPre ("FI".toList) (("PRE".toList) ++ (d :: ds') ++ rest) = none := by
      unfold tryLicPre
      simp [toList_FI, toList_PRE, List.isPrefixOf]
    have h3 : tryLicPre ("CCC".toList) (("PRE".toList) ++ (d :: ds') ++ rest) = none := by
      unfold tryLicPre
      simp [toList_CCC, toList_PRE, List.isPrefixOf]
    simp only [licenseAt, h1, h2, h3, tryLicPre_of hds hdig hb]
    rfl
  · subst hp
    have h1 : tryLicPre ("FII".toList) (("SAOC".toList) ++ (d :: ds') ++ rest) = none := by
      unfold tryLicPre
      simp [toList_FII, toList_SAOC, List.isPrefixOf]
    have h2 : tryLicPre ("FI".toList) (("SAOC".toList) ++ (d :: ds') ++ rest) = none := by
      unfold tryLicPre
      simp [toList_FI, toList_SAOC, List.isPrefixOf]
    have h3 : tryLicPre ("CCC".toList) (("SAOC".toList) ++ (d :: ds') ++ rest) = none := by
      unfold tryLicPre
      simp [toList_CCC, toList_SAOC, List.isPrefixOf]
    have h4 : tryLicPre ("PRE".toList) (("SAOC".toList) ++ (d :: ds') ++ rest) = none := by
      unfold tryLicPre
      simp [toList_PRE, toList_SAOC, List.isPrefixOf]
    simp only [licenseAt, h1, h2, h3, h4, tryLicPre_of hds hdig hb]
    rfl

/-- `licenseAt` succeeds exactly on texts opening with a spec license token
followed by a word boundary. -/
theorem licenseAt_isSome_iff {b : Line} :
    (licenseAt b).isSome = true ↔
      ∃ t rest, b = t ++ rest ∧ SpecLicenseToken t ∧ headNonWord rest = true := by
  constructor
  · intro h
    obtain ⟨t, ht⟩ := Option.isSome_iff_exists.mp h
    obtain ⟨rest, h1, h2, h3⟩ := licenseAt_some ht
    exact ⟨t, rest, h1, h2, h3⟩
  · rintro ⟨t, rest, rfl, ⟨p, ds, hp, rfl, hds, hdig⟩, hb⟩
    exact licenseAt_of hp hds hdig hb

theorem lastNonWordOk_cons (w : Bool) (c : Char) (a : Line) :
    lastNonWordOk w (c :: a) = lastNonWordOk (isWordChar c) a := by
  cases a with
  | nil => simp [lastNonWordOk]
  | cons d t =>
    rcases e : (d :: t).getLast? with _ | x
    · exact absurd e (by simp)
    · simp [lastNonWordOk, List.getLast?_cons_cons, e]

/-- The `\b`-guarded scan succeeds exactly when the matcher succeeds at some
position whose left side ends in a word boundary. -/
theorem scanWB_isSome_iff {α : Type} (f : Line → Option α) (hnil : f [] = none)
    (s : Line) : ∀ w : Bool,
    (scanWB f w s).isSome = true ↔
      ∃ a b, s = a ++ b ∧ lastNonWordOk w a = true ∧ (f b).isSome = true := by
  induction s with
  | nil =>
    intro w
    constructor
    · intro h
      simp [scanWB] at h
    · rintro ⟨a, b, hab, _, hf⟩
      obtain ⟨rfl, rfl⟩ := List.append_eq_nil.mp hab.symm
      rw [hnil] at hf
      simp at hf
  | cons c rest ih =>
    intro w
    constructor
    · intro h
      unfold scanWB at h
      rcases hw : (if w = true then none else f (c :: rest)) with _ | v
      · rw [hw] at h
        obtain ⟨a, b, hab, hlw, hf⟩ := (ih (isWordChar c)).mp (by
          rcases hs : scanWB f (isWordChar c) rest with _ | v'
          · rw [hs] at h; simp at h
          · simp [hs])
        exact ⟨c :: a, b, by rw [List.cons_append, hab], by rw [lastNonWordOk_cons]; exact hlw, hf⟩
      · by_cases hwt : w = true
        · simp [hwt] at hw
        · refine ⟨[], c :: rest, rfl, ?_, ?_⟩
          · simp [lastNonWordOk, Bool.not_eq_true] at hwt ⊢
            exact hwt
          · rw [if_neg hwt] at hw
            simp [hw]
    · rintro ⟨a, b, hab, hlw, hf⟩
      cases a with
      | nil =>
        simp only [List.nil_append] at hab
        subst hab
        have hwf : w = false := by
          simpa [lastNonWordOk] using hlw
        subst hwf
        unfold scanWB
        obtain ⟨v, hv⟩ := Option.isSome_iff_exists.mp hf
        simp [hv]
      | cons c' a' =>
        rw [List.cons_append] at hab
        injection hab with h1 hrest
        subst h1
        have hrec : (scanWB f (isWordChar c) rest).isSome = true :=
          (ih (isWordChar c)).mpr ⟨a', b, hrest, by rw [lastNonWordOk_cons] at hlw; exact hlw, hf⟩
        unfold scanWB
        rcases hw : (if w = true then none else f (c :: rest)) with _ | v
        · simpa [hw] using hrec
        · simp [hw]

/-- C1.  For every input line, `is_provider_start_line` labels it a
record-start if and only if the line contains a whole-word license-number
token (one of the prefix families FI, FII, CCC, PRE, SAOC followed by one or
more digits) and contains the literal substring `Capacity:`. -/
theorem claim1_record_start_iff (s : Line) :
    is_provider_start_line s = true ↔
      SpecWholeWordLicense s ∧ ("Capacity:".toList) <:+: s := by
  unfold is_provider_start_line
  rw [Bool.and_eq_true, containsSub_infix_iff]
  constructor
  · rintro ⟨h1, h2⟩
    refine ⟨?_, h2⟩
    obtain ⟨a, b, hab, hlw, hf⟩ := (scanWB_isSome_iff licenseAt licenseAt_nil s false).mp h1
    obtain ⟨t, rest, rfl, ht, hb⟩ := licenseAt_isSome_iff.mp hf
    exact ⟨a, t, rest, by rw [hab, List.append_assoc], ht, hlw, hb⟩
  · rintro ⟨⟨a, t, b, hab, ht, hlw, hb⟩, h2⟩
    refine ⟨?_, h2⟩
    refine (scanWB_isSome_iff licenseAt licenseAt_nil s false).mpr
      ⟨a, t ++ b, by rw [hab, List.append_assoc], hlw, ?_⟩
    exact licenseAt_isSome_iff.mpr ⟨t, b, rfl, ht, hb⟩


/-- The token `extract_license_number` returns, when nonempty, satisfies the
validator's anchored `LICENSE_PATTERN`. -/
theorem licenseValid_of_licenseAt {b t : Line} (h : licenseAt b = some t) :
    licenseValid t = true := by
  obtain ⟨rest, hb, ⟨p, ds, hp, rfl, hds, hdig⟩, hnw⟩ := licenseAt_some h
  have hfull : licFull p (p ++ ds) = true := by
    unfold licFull
    have hpre : p.isPrefixOf (p ++ ds) = true :=
      List.isPrefixOf_iff_prefix.mpr (List.prefix_append p ds)
    rw [hpre, List.drop_left]
    simp [List.isEmpty_iff, hds, hdig]
  simp only [LicensePrefixes, List.mem_cons, List.mem_singleton,
    List.not_mem_nil, or_false] at hp
  rcases hp with hp | hp | hp | hp | hp <;> subst hp <;>
    unfold licenseValid <;> rw [hfull] <;> simp

/-- A successful `scanWB` comes from a successful matcher application. -/
theorem scanWB_some_src {α : Type} (f : Line → Option α) :
    ∀ (s : Line) (w : Bool) (v : α), scanWB f w s = some v → ∃ b, f b = some v := by
  intro s
  induction s with
  | nil => intro w v h; simp [scanWB] at h
  | cons c rest ih =>
    intro w v h
    unfold scanWB at h
    rcases hw : (if w = true then none else f (c :: rest)) with _ | v'
    · rw [hw] at h
      exact ih (isWordChar c) v h
    · rw [hw] at h
      obtain rfl : v' = v := Option.some.inj h
      by_cases hwt : w = true
      · simp [hwt] at hw
      · rw [if_neg hwt] at hw
        exact ⟨c :: rest, hw⟩

/-- A successful `scanFor` comes from a successful matcher application. -/
theorem scanFor_some_src {α : Type} (f : Line → Option α) :
    ∀ (s : Line) (v : α), scanFor f s = some v → ∃ b, f b = some v := by
  intro s
  induction s with
  | nil => intro v h; exact ⟨[], h⟩
  | cons c rest ih =>
    intro v h
    unfold scanFor at h
    rcases hw : f (c :: rest) with _ | v'
    · rw [hw] at h
      exact ih v h
    · rw [hw] at h
      exact ⟨c :: rest, h ▸ hw⟩

/-- A nonempty `extract_license_number` result conforms to the validator's
license pattern. -/
theorem extract_license_number_valid (s : Line)
    (h : extract_license_number s ≠ []) :
    licenseValid (extract_license_number s) = true := by
  unfold extract_license_number at *
  rcases hs : scanWB licenseAt false s with _ | t
  · rw [hs] at h
    simp at h
  · obtain ⟨b, hb⟩ := scanWB_some_src licenseAt s false t hs
    simpa using licenseValid_of_licenseAt hb

/-- `extract_phone` returns `''` or a string conforming to the validator's
phone pattern. -/
theorem extract_phone_cases (s : Line) :
    extract_phone s = [] ∨ phoneValid (extract_phone s) = true := by
  unfold extract_phone
  split
  case h_2 => exact Or.inl rfl
  case h_1 a b c rest =>
    split
    case isFalse => exact Or.inl rfl
    case isTrue h1 =>
      split
      case h_2 => exact Or.inl rfl
      case h_1 d e g r3 =>
        split
        case isFalse => exact Or.inl rfl
        case isTrue h2 =>
          split
          case h_2 => exact Or.inl rfl
          case h_1 p1 p2 p3 p4 r4 =>
            split
            case isFalse => exact Or.inl rfl
            case isTrue h3 =>
              refine Or.inr ?_
              simp only [Bool.and_eq_true] at h1 h2 h3
              simp [phoneValid, h1.1.1, h1.1.2, h1.2, h2.1.1, h2.1.2, h2.2,
                h3.1.1.1, h3.1.1.2, h3.1.2, h3.2]

/-- A nonempty `extract_phone` result conforms to the validator's phone
pattern. -/
theorem extract_phone_valid (s : Line) (h : extract_phone s ≠ []) :
    phoneValid (extract_phone s) = true :=
  (extract_phone_cases s).resolve_left h

/-- A successful `dateAt` match conforms to the validator's date pattern. -/
theorem dateAt_valid {s t : Line} (h : dateAt s = some t) : dateValid t = true := by
  unfold dateAt at h
  split at h
  case h_1 a b s1 c d s2 e g hh i rest =>
    split at h
    case isTrue hc =>
      obtain rfl := Option.some.inj h
      simp only [Bool.and_eq_true, decide_eq_true_eq] at hc
      simp_all [dateValid]
    case isFalse => exact absurd h (by simp)
  case h_2 => exact absurd h (by simp)

/-- A nonempty `extract_effective_date` result conforms to the validator's
date pattern. -/
theorem extract_effective_date_valid (s : Line) (h : extract_effective_date s ≠ []) :
    dateValid (extract_effective_date s) = true := by
  unfold extract_effective_date at *
  rcases hs : scanWB dateAt false s with _ | t
  · rw [hs] at h
    simp at h
  · obtain ⟨b, hb⟩ := scanWB_some_src dateAt s false t hs
    simpa using dateAt_valid hb

/-- Collection never loses or reorders lines: collected block tail followed
by the remaining stream is the original stream. -/
theorem collectCont_append : ∀ (ls : List Line) (n : Nat),
    (collectCont ls n).1 ++ (collectCont ls n).2 = ls := by
  intro ls
  induction ls with
  | nil => intro n; rfl
  | cons l rest ih =>
    intro n
    unfold collectCont
    by_cases h1 : 10 ≤ n
    · simp [h1]
    · rw [if_neg h1]
      by_cases h2 : isBreakLine l = true
      · simp [h2]
      · simp [h2, ih (n + 1)]

/-- Collection respects the 10-line cap: starting from block size `n`, the
collected tail keeps the block within 10 lines. -/
theorem collectCont_len : ∀ (ls : List Line) (n : Nat),
    (collectCont ls n).1 = [] ∨ n + (collectCont ls n).1.length ≤ 10 := by
  intro ls
  induction ls with
  | nil => intro n; exact Or.inl rfl
  | cons l rest ih =>
    intro n
    unfold collectCont
    by_cases h1 : 10 ≤ n
    · simp [h1]
    · rw [if_neg h1]
      by_cases h2 : isBreakLine l = true
      · simp [h2]
      · simp only [h2, if_false, Bool.false_eq_true, List.length_cons]
        rcases ih (n + 1) with hc | hc
        · right
          rw [hc]
          simp only [List.length_nil]
          omega
        · right
          omega

/-- Collected continuation lines satisfy none of the break conditions. -/
theorem collectCont_mem : ∀ (ls : List Line) (n : Nat) (l : Line),
    l ∈ (collectCont ls n).1 → isBreakLine l = false := by
  intro ls
  induction ls with
  | nil => intro n l h; simp [collectCont] at h
  | cons x rest ih =>
    intro n l h
    unfold collectCont at h
    by_cases h1 : 10 ≤ n
    · simp [h1] at h
    · rw [if_neg h1] at h
      by_cases h2 : isBreakLine x = true
      · simp [h2] at h
      · simp only [h2, if_false, Bool.false_eq_true, List.mem_cons] at h
        rcases h with rfl | h
        · exact Bool.not_eq_true _ ▸ (Bool.eq_false_iff.mpr h2)
        · exact ih (n + 1) l h

/-- The zip of a recognized zip-county header is exactly five digits. -/
theorem is_zip_header_shape {s z c : Line} (h : is_zip_header s = some (z, c)) :
    zipValid z = true := by
  simp only [is_zip_header] at h
  split at h
  case isTrue h1 =>
    split at h
    case isTrue => exact absurd h (by simp)
    case isFalse =>
      split at h
      case isTrue => exact absurd h (by simp)
      case isFalse =>
        split at h
        case isTrue =>
          obtain ⟨h5, h6⟩ := Prod.mk.inj (Option.some.inj h)
          unfold zipValid
          rw [← h5]
          exact h1
        case isFalse => exact absurd h (by simp)
  case isFalse => exact absurd h (by simp)

/-- Every character of a zip-county header line is a digit, whitespace, or a
letter. -/
theorem zip_header_chars {s z c : Line} (h : is_zip_header s = some (z, c)) :
    ∀ x ∈ s, x.isDigit = true ∨ isSpaceChar x = true ∨ x.isAlpha = true := by
  simp only [is_zip_header] at h
  split at h
  case isTrue h1 =>
    split at h
    case isTrue => exact absurd h (by simp)
    case isFalse =>
      split at h
      case isTrue => exact absurd h (by simp)
      case isFalse =>
        split at h
        case isTrue h4 =>
          intro x hx
          rw [← List.take_append_drop 5 s] at hx
          rcases List.mem_append.mp hx with hx | hx
          · left
            rw [Bool.and_eq_true] at h1
            exact List.all_eq_true.mp h1.2 x hx
          · rw [← List.takeWhile_append_dropWhile (p := isSpaceChar) (l := s.drop 5)] at hx
            rcases List.mem_append.mp hx with hx | hx
            · right; left
              exact List.all_eq_true.mp List.all_takeWhile x hx
            · rw [← List.takeWhile_append_dropWhile (p := Char.isAlpha)
                (l := (s.drop 5).dropWhile isSpaceChar)] at hx
              rcases List.mem_append.mp hx with hx | hx
              · right; right
                exact List.all_eq_true.mp List.all_takeWhile x hx
              · right; left
                exact List.all_eq_true.mp h4 x hx
        case isFalse => exact absurd h (by simp)
  case isFalse => exact absurd h (by simp)

/-- A record-start line contains the colon of `Capacity:`. -/
theorem colon_mem_of_start {s : Line} (h : is_provider_start_line s = true) : ':' ∈ s := by
  unfold is_provider_start_line at h
  rw [Bool.and_eq_true] at h
  exact ((containsSub_infix_iff _ s).mp h.2).subset (by decide)

/-- A record-start line can never be read as a zip-county header (it contains
a colon, which the header pattern has no room for). -/
theorem start_not_zip {s : Line} (h : is_provider_start_line s = true) :
    is_zip_header s = none := by
  rcases hz : is_zip_header s with _ | zc
  · rfl
  · exfalso
    rcases zip_header_chars hz ':' (colon_mem_of_start h) with hc | hc | hc
    · exact absurd hc (by decide)
    · exact absurd hc (by decide)
    · exact absurd hc (by decide)

/-- A total-marker line can never be read as a zip-county header (it starts
with a letter). -/
theorem total_not_zip {s : Line} (h : isTotalLine s = true) : is_zip_header s = none := by
  unfold isTotalLine at h
  obtain ⟨t, hs⟩ := List.isPrefixOf_iff_prefix.mp h
  rw [← hs]
  have h5 : (("Total Number in Zip Code:".toList ++ t).take 5) = ['T', 'o', 't', 'a', 'l'] := rfl
  unfold is_zip_header
  rw [h5]
  simp

theorem ctxFold_cons (st : Line × Line) (l : Line) (pre : List Line) :
    ctxFold st (l :: pre) = ctxFold (ctxStep st l) pre := rfl

theorem ctxFold_append (st : Line × Line) (p q : List Line) :
    ctxFold st (p ++ q) = ctxFold (ctxFold st p) q := by
  unfold ctxFold
  exact List.foldl_append ctxStep st p q

theorem ctxStep_of_skip {st : Line × Line} {l : Line} (h : isSkipLine l = true) :
    ctxStep st l = st := by
  simp [ctxStep, h]

theorem ctxStep_of_nozip {st : Line × Line} {l : Line} (h : is_zip_header l = none) :
    ctxStep st l = st := by
  unfold ctxStep
  rw [h]
  split <;> rfl

theorem ctxStep_of_zip {st : Line × Line} {l : Line} {zc : Line × Line}
    (h1 : isSkipLine l = false) (h2 : is_zip_header l = some zc) : ctxStep st l = zc := by
  simp [ctxStep, h1, h2]

theorem ctxFold_of_nozip {pre : List Line} (h : ∀ m ∈ pre, is_zip_header m = none)
    (st : Line × Line) : ctxFold st pre = st := by
  induction pre generalizing st with
  | nil => rfl
  | cons l pre ih =>
    rw [ctxFold_cons, ctxStep_of_nozip (h l (List.mem_cons_self l pre))]
    exact ih (fun m hm => h m (List.mem_cons_of_mem l hm)) st

/-- Every block the per-page loop emits is nonempty, begins with a
record-start line, stays within the 10-line cap, and has no record-start
line in its tail. -/
theorem processLinesF_blocks : ∀ (fuel : Nat) (ls : List Line) (st : Line × Line)
    (cb : (Line × Line) × List Line), cb ∈ (processLinesF fuel ls st).2 →
    ∃ hd tl, cb.2 = hd :: tl ∧ is_provider_start_line hd = true ∧
      cb.2.length ≤ 10 ∧ ∀ l ∈ tl, is_provider_start_line l = false := by
  intro fuel
  induction fuel with
  | zero => intro ls st cb h; simp [processLinesF] at h
  | succ fuel ih =>
    intro ls st cb h
    cases ls with
    | nil => simp [processLinesF] at h
    | cons l rest =>
      unfold processLinesF at h
      by_cases h1 : isSkipLine l = true
      · rw [if_pos h1] at h
        exact ih rest st cb h
      · rw [if_neg h1] at h
        rcases hz : is_zip_header l with _ | zc
        · rw [hz] at h
          by_cases h2 : isTotalLine l = true
          · rw [if_pos h2] at h
            exact ih rest st cb h
          · rw [if_neg h2] at h
            by_cases h3 : is_provider_start_line l = true
            · rw [if_pos h3] at h
              simp only [List.mem_cons] at h
              rcases h with rfl | h
              · refine ⟨l, (collectCont rest 1).1, rfl, h3, ?_, ?_⟩
                · simp only [List.length_cons]
                  rcases collectCont_len rest 1 with hc | hc
                  · rw [hc]; simp
                  · omega
                · intro x hx
                  have hb := collectCont_mem rest 1 x hx
                  unfold isBreakLine at hb
                  simp only [Bool.or_eq_false_iff] at hb
                  exact hb.1.1.1
              · exact ih (collectCont rest 1).2 st cb h
            · rw [if_neg h3] at h
              exact ih rest st cb h
        · rw [hz] at h
          exact ih rest zc cb h

/-- The heads of the emitted blocks are exactly the stream's record-start
lines that carry no noise marker and no total-marker prefix, in order. -/
theorem processLinesF_heads : ∀ (fuel : Nat) (ls : List Line) (st : Line × Line),
    ls.length ≤ fuel →
    (processLinesF fuel ls st).2.map (fun cb => cb.2.headD []) =
      ls.filter (fun l => is_provider_start_line l && !isSkipLine l && !isTotalLine l) := by
  intro fuel
  induction fuel with
  | zero =>
    intro ls st h
    rw [Nat.le_zero, List.length_eq_zero] at h
    subst h
    rfl
  | succ fuel ih =>
    intro ls st hlen
    cases ls with
    | nil => rfl
    | cons l rest =>
      simp only [List.length_cons, Nat.succ_le_succ_iff] at hlen
      unfold processLinesF
      by_cases h1 : isSkipLine l = true
      · rw [if_pos h1]
        rw [List.filter_cons, if_neg (by simp [h1])]
        exact ih rest st hlen
      · rw [if_neg h1]
        rcases hz : is_zip_header l with _ | zc
        · by_cases h2 : isTotalLine l = true
          · rw [if_pos h2]
            rw [List.filter_cons, if_neg (by simp [h2])]
            exact ih rest st hlen
          · rw [if_neg h2]
            by_cases h3 : is_provider_start_line l = true
            · rw [if_pos h3]
              rw [List.filter_cons, if_pos (by simp [h1, h2, h3])]
              simp only [List.map_cons, List.headD_cons]
              have hsplit := collectCont_append rest 1
              have hfil : (collectCont rest 1).1.filter
                  (fun l => is_provider_start_line l && !isSkipLine l && !isTotalLine l) = [] := by
                rw [List.filter_eq_nil_iff]
                intro a ha
                have hb := collectCont_mem rest 1 a ha
                unfold isBreakLine at hb
                simp only [Bool.or_eq_false_iff] at hb
                simp [hb.1.1.1]
              have hlen2 : (collectCont rest 1).2.length ≤ fuel := by
                have : (collectCont rest 1).1.length + (collectCont rest 1).2.length
                    = rest.length := by
                  rw [← List.length_append, hsplit]
                omega
              rw [ih (collectCont rest 1).2 st hlen2]
              congr 1
              conv_rhs => rw [← hsplit]
              rw [List.filter_append, hfil, List.nil_append]
            · rw [if_neg h3]
              rw [List.filter_cons, if_neg (by simp [h3])]
              exact ih rest st hlen
        · have h3 : is_provider_start_line l = false := by
            cases hst : is_provider_start_line l
            · rfl
            · rw [start_not_zip hst] at hz
              exact absurd hz (by simp)
          have hrhs : (l :: rest).filter
              (fun l => is_provider_start_line l && !isSkipLine l && !isTotalLine l) =
              rest.filter
                (fun l => is_provider_start_line l && !isSkipLine l && !isTotalLine l) := by
            rw [List.filter_cons, if_neg (by rw [h3]; simp)]
          rw [hrhs]
          exact ih rest zc hlen

/-- Every emitted block carries the context current when it was opened: the
fold of the spec-side context updates over the lines preceding its head. -/
theorem processLinesF_ctx : ∀ (fuel : Nat) (ls : List Line) (st : Line × Line)
    (cb : (Line × Line) × List Line), cb ∈ (processLinesF fuel ls st).2 →
    ∃ pre suf, ls = pre ++ suf ∧ cb.1 = ctxFold st pre ∧ suf.head? = cb.2.head? := by
  intro fuel
  induction fuel with
  | zero => intro ls st cb h; simp [processLinesF] at h
  | succ fuel ih =>
    intro ls st cb h
    cases ls with
    | nil => simp [processLinesF] at h
    | cons l rest =>
      unfold processLinesF at h
      by_cases h1 : isSkipLine l = true
      · rw [if_pos h1] at h
        obtain ⟨pre, suf, hps, hctx, hhd⟩ := ih rest st cb h
        exact ⟨l :: pre, suf, by rw [List.cons_append, hps],
          by rw [ctxFold_cons, ctxStep_of_skip h1]; exact hctx, hhd⟩
      · rw [if_neg h1] at h
        rcases hz : is_zip_header l with _ | zc
        · rw [hz] at h
          by_cases h2 : isTotalLine l = true
          · rw [if_pos h2] at h
            obtain ⟨pre, suf, hps, hctx, hhd⟩ := ih rest st cb h
            exact ⟨l :: pre, suf, by rw [List.cons_append, hps],
              by rw [ctxFold_cons, ctxStep_of_nozip hz]; exact hctx, hhd⟩
          · rw [if_neg h2] at h
            by_cases h3 : is_provider_start_line l = true
            · rw [if_pos h3] at h
              simp only [List.mem_cons] at h
              rcases h with rfl | h
              · exact ⟨[], l :: rest, rfl, rfl, rfl⟩
              · obtain ⟨pre, suf, hps, hctx, hhd⟩ := ih (collectCont rest 1).2 st cb h
                refine ⟨(l :: (collectCont rest 1).1) ++ pre, suf, ?_, ?_, hhd⟩
                · rw [List.append_assoc, ← hps, List.cons_append, collectCont_append]
                · rw [ctxFold_append, ctxFold_cons, ctxStep_of_nozip hz,
                    ctxFold_of_nozip (fun m hm => ?_) st]
                  · exact hctx
                  · have hb := collectCont_mem rest 1 m hm
                    unfold isBreakLine at hb
                    simp only [Bool.or_eq_false_iff] at hb
                    rcases hzz : is_zip_header m with _ | zc2
                    · rfl
                    · exact absurd (by rw [hzz]; rfl : (is_zip_header m).isSome = true)
                        (by simp [hb.1.1.2])
            · rw [if_neg h3] at h
              obtain ⟨pre, suf, hps, hctx, hhd⟩ := ih rest st cb h
              exact ⟨l :: pre, suf, by rw [List.cons_append, hps],
                by rw [ctxFold_cons, ctxStep_of_nozip hz]; exact hctx, hhd⟩
        · rw [hz] at h
          obtain ⟨pre, suf, hps, hctx, hhd⟩ := ih rest zc cb h
          refine ⟨l :: pre, suf, by rw [List.cons_append, hps], ?_, hhd⟩
          rw [ctxFold_cons, ctxStep_of_zip (Bool.eq_false_iff.mpr h1) hz]
          exact hctx

/-- The zip context only ever holds `''` or five digits, and so does the
context attached to every emitted block. -/
theorem processLinesF_zipOk : ∀ (fuel : Nat) (ls : List Line) (st : Line × Line),
    zipOk st.1 = true →
    zipOk (processLinesF fuel ls st).1.1 = true ∧
      ∀ cb ∈ (processLinesF fuel ls st).2, zipOk cb.1.1 = true := by
  intro fuel
  induction fuel with
  | zero =>
    intro ls st h
    exact ⟨h, by intro cb hc; simp [processLinesF] at hc⟩
  | succ fuel ih =>
    intro ls st hst
    cases ls with
    | nil => exact ⟨hst, by intro cb hc; simp [processLinesF] at hc⟩
    | cons l rest =>
      unfold processLinesF
      by_cases h1 : isSkipLine l = true
      · rw [if_pos h1]
        exact ih rest st hst
      · rw [if_neg h1]
        rcases hz : is_zip_header l with _ | zc
        · by_cases h2 : isTotalLine l = true
          · rw [if_pos h2]
            exact ih rest st hst
          · rw [if_neg h2]
            by_cases h3 : is_provider_start_line l = true
            · rw [if_pos h3]
              obtain ⟨ha, hb⟩ := ih (collectCont rest 1).2 st hst
              refine ⟨ha, ?_⟩
              intro cb hc
              simp only [List.mem_cons] at hc
              rcases hc with rfl | hc
              · exact hst
              · exact hb cb hc
            · rw [if_neg h3]
              exact ih rest st hst
        · have hzv : zipOk zc.1 = true := by
            rcases zc with ⟨z, cty⟩
            unfold zipOk
            rw [is_zip_header_shape hz]
            simp
          exact ih rest zc hzv

/-- `extractBlocksAux` lifts the per-page block shape across pages. -/
theorem extractBlocksAux_blocks : ∀ (pages : List (List Line)) (st : Line × Line)
    (cb : (Line × Line) × List Line), cb ∈ extractBlocksAux pages st →
    ∃ hd tl, cb.2 = hd :: tl ∧ is_provider_start_line hd = true ∧
      cb.2.length ≤ 10 ∧ ∀ l ∈ tl, is_provider_start_line l = false := by
  intro pages
  induction pages with
  | nil => intro st cb h; simp [extractBlocksAux] at h
  | cons pg rest ih =>
    intro st cb h
    unfold extractBlocksAux at h
    rcases List.mem_append.mp h with h | h
    · exact processLinesF_blocks _ _ _ cb h
    · exact ih _ cb h

/-- `extractBlocksAux` lifts the zip invariant across pages. -/
theorem extractBlocksAux_zipOk : ∀ (pages : List (List Line)) (st : Line × Line),
    zipOk st.1 = true →
    ∀ cb ∈ extractBlocksAux pages st, zipOk cb.1.1 = true := by
  intro pages
  induction pages with
  | nil => intro st h cb hc; simp [extractBlocksAux] at hc
  | cons pg rest ih =>
    intro st hst cb hc
    unfold extractBlocksAux at hc
    rcases List.mem_append.mp hc with hc | hc
    · exact (processLinesF_zipOk _ _ _ hst).2 cb hc
    · exact ih _ (processLinesF_zipOk _ _ _ hst).1 cb hc

theorem dropWhile_dropWhile (p : Char → Bool) (l : Line) :
    (l.dropWhile p).dropWhile p = l.dropWhile p := by
  induction l with
  | nil => rfl
  | cons a l ih =>
    rw [List.dropWhile_cons]
    split
    · exact ih
    case isFalse h => rw [List.dropWhile_cons, if_neg h]

theorem dropTrailingWs_idem (s : Line) :
    dropTrailingWs (dropTrailingWs s) = dropTrailingWs s := by
  unfold dropTrailingWs
  rw [List.reverse_reverse, dropWhile_dropWhile]

theorem dropWhile_eq_self_of_pre {p : Char → Bool} {u v : Line}
    (hu : u.dropWhile p = u) (hv : v <+: u) : v.dropWhile p = v := by
  cases v with
  | nil => rfl
  | cons c v2 =>
    cases u with
    | nil => exact absurd hv (by simp)
    | cons d u2 =>
      obtain ⟨hcd, hvu⟩ := List.cons_prefix_cons.mp hv
      subst hcd
      have hpd : p c = false := by
        cases hp : p c
        · rfl
        · exfalso
          rw [List.dropWhile_cons, if_pos (by rw [hp])] at hu
          have hle := List.IsSuffix.length_le (List.dropWhile_suffix (l := u2) p)
          rw [hu] at hle
          simp only [List.length_cons] at hle
          omega
      rw [List.dropWhile_cons, if_neg (by rw [hpd]; simp)]

theorem dropTrailingWs_pre (s : Line) : dropTrailingWs s <+: s := by
  have h := List.dropWhile_suffix (l := s.reverse) isSpaceChar
  have h2 : ((s.reverse.dropWhile isSpaceChar).reverse).reverse <:+ s.reverse := by
    rw [List.reverse_reverse]
    exact h
  exact List.reverse_suffix.mp h2

theorem pstrip_idem (s : Line) : pstrip (pstrip s) = pstrip s := by
  unfold pstrip
  have h1 : (s.dropWhile isSpaceChar).dropWhile isSpaceChar = s.dropWhile isSpaceChar :=
    dropWhile_dropWhile isSpaceChar s
  have h2 : (dropTrailingWs (s.dropWhile isSpaceChar)).dropWhile isSpaceChar
      = dropTrailingWs (s.dropWhile isSpaceChar) :=
    dropWhile_eq_self_of_pre h1 (dropTrailingWs_pre (s.dropWhile isSpaceChar))
  rw [h2, dropTrailingWs_idem]

/-- C3 (counterexample).  The cleanup is not idempotent: each `$`-anchored
substitution removes only the last trailing fragment, so a doubled
`owned by` survives one pass and is removed by the next. -/
theorem claim3_counterexample :
    clean_provider_name (clean_provider_name ("A owned by owned by".toList)) ≠
      clean_provider_name ("A owned by owned by".toList) := by decide

/-- C3 (amended).  Provider-name cleanup is idempotent on every input whose
cleaned name no longer ends in one of the owner fragments: if no substitution
would change `clean_provider_name x` any further, a second cleanup pass is a
no-op.  (In general it is not idempotent: one pass removes only the last
trailing fragment occurrence, as the counterexample shows.) -/
theorem claim3_clean_idem (x : Line)
    (h : hasOwnerSuffix (clean_provider_name x) = false) :
    clean_provider_name (clean_provider_name x) = clean_provider_name x := by
  unfold hasOwnerSuffix at h
  simp only [Bool.or_eq_false_iff, Bool.not_eq_false', beq_iff_eq] at h
  obtain ⟨⟨⟨e1, e2⟩, e3⟩, e4⟩ := h
  have hout : clean_provider_name (clean_provider_name x)
      = pstrip (clean_provider_name x) := by
    show pstrip (subTrailing ("ob".toList) true (subTrailing ("owned".toList) true
      (subTrailing ("OWNED BY".toList) false (subTrailing ("owned by".toList) true
        (clean_provider_name x))))) = pstrip (clean_provider_name x)
    rw [e1, e2, e3, e4]
  have hx : clean_provider_name x = pstrip (subTrailing ("ob".toList) true
      (subTrailing ("owned".toList) true (subTrailing ("OWNED BY".toList) false
        (subTrailing ("owned by".toList) true x)))) := rfl
  rw [hout, hx, pstrip_idem]

/-- C3 (witness for the amended theorem). -/
theorem claim3_witness :
    clean_provider_name (clean_provider_name ("Sunny Days".toList)) =
      clean_provider_name ("Sunny Days".toList) :=
  claim3_clean_idem ("Sunny Days".toList) (by decide)

/-- C2.  Every block handed to the record assembler has between 1 and 10
lines; its first line satisfies the record-start condition and no other line
does. -/
theorem claim2_blocks (pages : List (List Line)) (cb : (Line × Line) × List Line)
    (h : cb ∈ extractBlocks pages) :
    1 ≤ cb.2.length ∧ cb.2.length ≤ 10 ∧
      ∃ hd tl, cb.2 = hd :: tl ∧ is_provider_start_line hd = true ∧
        ∀ l ∈ tl, is_provider_start_line l = false := by
  obtain ⟨hd, tl, he, hs, hlen, htl⟩ := extractBlocksAux_blocks _ _ cb h
  refine ⟨?_, hlen, hd, tl, he, hs, htl⟩
  rw [he]
  simp

/-- C2 (witness). -/
theorem claim2_witness :
    1 ≤ ((extractBlocks pagesA).headD (([], []), [])).2.length ∧
      ((extractBlocks pagesA).headD (([], []), [])).2.length ≤ 10 ∧
      ∃ hd tl, ((extractBlocks pagesA).headD (([], []), [])).2 = hd :: tl ∧
        is_provider_start_line hd = true ∧
        ∀ l ∈ tl, is_provider_start_line l = false :=
  claim2_blocks pagesA _ (by decide)


/-- C6 (counterexample).  A record-start line that also carries a noise
marker is skipped outright: the noise filter runs first, so the line opens no
block and the parse yields nothing. -/
theorem claim6_counterexample :
    is_provider_start_line noisyStartLine = true ∧ extractBlocks pagesNoisy = [] := by
  constructor
  · decide
  · decide

/-- C6 (amended).  A record-start line opens a block unless it also contains
a noise marker substring or starts with the total-marker prefix: across the
whole document, the heads of the blocks handed to the assembler are exactly
the record-start lines carrying no noise marker and no total prefix, in
order. -/
theorem claim6_starts_open_blocks (pages : List (List Line)) (st : Line × Line) :
    (extractBlocksAux pages st).map (fun cb => cb.2.headD []) =
      (pages.map (fun pg => (prepPage pg).filter
        (fun l => is_provider_start_line l && !isSkipLine l && !isTotalLine l))).flatten := by
  induction pages generalizing st with
  | nil => rfl
  | cons pg rest ih =>
    unfold extractBlocksAux processLines
    rw [List.map_append]
    rw [processLinesF_heads (prepPage pg).length (prepPage pg) st (Nat.le_refl _)]
    rw [ih]
    simp

/-- The final context of the per-page loop is the spec-side fold of the
context updates over the whole line stream. -/
theorem processLinesF_finalState : ∀ (fuel : Nat) (ls : List Line) (st : Line × Line),
    ls.length ≤ fuel → (processLinesF fuel ls st).1 = ctxFold st ls := by
  intro fuel
  induction fuel with
  | zero =>
    intro ls st h
    rw [Nat.le_zero, List.length_eq_zero] at h
    subst h
    rfl
  | succ fuel ih =>
    intro ls st hlen
    cases ls with
    | nil => rfl
    | cons l rest =>
      simp only [List.length_cons, Nat.succ_le_succ_iff] at hlen
      unfold processLinesF
      by_cases h1 : isSkipLine l = true
      · rw [if_pos h1, ctxFold_cons, ctxStep_of_skip h1]
        exact ih rest st hlen
      · rw [if_neg h1]
        rcases hz : is_zip_header l with _ | zc
        · rw [ctxFold_cons, ctxStep_of_nozip hz]
          by_cases h2 : isTotalLine l = true
          · rw [if_pos h2]
            exact ih rest st hlen
          · rw [if_neg h2]
            by_cases h3 : is_provider_start_line l = true
            · rw [if_pos h3]
              have hsplit := collectCont_append rest 1
              have hnozip : ∀ m ∈ (collectCont rest 1).1, is_zip_header m = none := by
                intro m hm
                have hb := collectCont_mem rest 1 m hm
                unfold isBreakLine at hb
                simp only [Bool.or_eq_false_iff] at hb
                rcases hzz : is_zip_header m with _ | zc2
                · rfl
                · exact absurd (by rw [hzz]; rfl : (is_zip_header m).isSome = true)
                    (by simp [hb.1.1.2])
              have hlen2 : (collectCont rest 1).2.length ≤ fuel := by
                have : (collectCont rest 1).1.length + (collectCont rest 1).2.length
                    = rest.length := by
                  rw [← List.length_append, hsplit]
                omega
              show (processLinesF fuel (collectCont rest 1).2 st).1 = ctxFold st rest
              rw [ih (collectCont rest 1).2 st hlen2]
              conv_rhs => rw [← hsplit]
              rw [ctxFold_append, ctxFold_of_nozip hnozip]
            · rw [if_neg h3]
              exact ih rest st hlen
        · rw [ctxFold_cons, ctxStep_of_zip (Bool.eq_false_iff.mpr h1) hz]
          exact ih rest zc hlen

/-- Document-level context propagation: every block emitted during the page
loop carries the fold of the context updates over all prepared lines that
precede its head, across page boundaries. -/
theorem extractBlocksAux_ctx : ∀ (pages : List (List Line)) (st : Line × Line)
    (cb : (Line × Line) × List Line), cb ∈ extractBlocksAux pages st →
    ∃ pre suf, ((pages.map prepPage).flatten) = pre ++ suf ∧
      cb.1 = ctxFold st pre ∧ suf.head? = cb.2.head? := by
  intro pages
  induction pages with
  | nil => intro st cb h; simp [extractBlocksAux] at h
  | cons pg rest ih =>
    intro st cb h
    unfold extractBlocksAux at h
    rcases List.mem_append.mp h with h | h
    · obtain ⟨pre, suf, hps, hctx, hhd⟩ :=
        processLinesF_ctx (prepPage pg).length (prepPage pg) st cb h
      obtain ⟨hd, tl, hcb, -, -, -⟩ := processLinesF_blocks (prepPage pg).length _ _ cb h
      refine ⟨pre, suf ++ (rest.map prepPage).flatten, ?_, hctx, ?_⟩
      · rw [List.map_cons, List.flatten_cons, hps, List.append_assoc]
      · rw [List.head?_append, hhd, hcb]
        rfl
    · obtain ⟨pre, suf, hps, hctx, hhd⟩ :=
        ih (processLines (prepPage pg) st).1 cb h
      refine ⟨prepPage pg ++ pre, suf, ?_, ?_, hhd⟩
      · rw [List.map_cons, List.flatten_cons, hps, List.append_assoc]
      · have hfs : (processLines (prepPage pg) st).1 = ctxFold st (prepPage pg) :=
          processLinesF_finalState (prepPage pg).length (prepPage pg) st (Nat.le_refl _)
        rw [hctx, hfs, ctxFold_append]

/-- C7.  Every emitted block (hence every emitted record) carries the zip and
county of the most recent zip-county header line seen before its block was
opened — the fold of the spec-side context updates over all prepared document
lines preceding the block's head — and this context persists across blocks
and across page boundaries within one parse; in the two concrete documents,
one with the header and both records on one page and one with the header and
the records spread over three pages, both records carry `zip_code="68002"`,
`county="Washington"`. -/
theorem claim7_context :
    (∀ (pages : List (List Line)) (st : Line × Line),
      ∀ cb ∈ extractBlocksAux pages st,
      ∃ pre suf, ((pages.map prepPage).flatten) = pre ++ suf ∧
        cb.1 = ctxFold st pre ∧ suf.head? = cb.2.head?) ∧
    (extract_providers_from_pdf pagesA []).map (fun p => (p.zipCode, p.county)) =
      [("68002".toList, "Washington".toList), ("68002".toList, "Washington".toList)] ∧
    (extract_providers_from_pdf pagesB []).map (fun p => (p.zipCode, p.county)) =
      [("68002".toList, "Washington".toList), ("68002".toList, "Washington".toList)] := by
  refine ⟨fun pages st cb h => extractBlocksAux_ctx pages st cb h, by decide, by decide⟩

/-- C7 (witness). -/
theorem claim7_witness :
    ∃ pre suf, (((pagesA.drop 1).map prepPage).flatten) = pre ++ suf ∧
      ((extractBlocksAux (pagesA.drop 1) ([], [])).headD (([], []), [])).1 =
        ctxFold ([], []) pre ∧
      suf.head? =
        ((extractBlocksAux (pagesA.drop 1) ([], [])).headD (([], []), [])).2.head? :=
  claim7_context.1 (pagesA.drop 1) ([], []) _ (by decide)

theorem firstNonEmpty_cases (f : Line → Line) (ls : List Line) :
    firstNonEmpty f ls = [] ∨ ∃ l ∈ ls, firstNonEmpty f ls = f l ∧ f l ≠ [] := by
  unfold firstNonEmpty
  rcases e : ls.findSome? (fun l => let v := f l; if v.isEmpty then none else some v)
    with _ | v
  · exact Or.inl rfl
  · right
    obtain ⟨l, hl, hf⟩ := List.exists_of_findSome?_eq_some e
    simp only at hf
    by_cases he : (f l).isEmpty = true
    · rw [if_pos he] at hf
      exact absurd hf (by simp)
    · rw [if_neg he] at hf
      obtain rfl := Option.some.inj hf
      exact ⟨l, hl, rfl, by simpa [List.isEmpty_iff] using he⟩

theorem dateAndOwner_cases (ls : List Line) :
    (dateAndOwner ls).1 = [] ∨ ∃ l ∈ ls, (dateAndOwner ls).1 = extract_effective_date l ∧
      extract_effective_date l ≠ [] := by
  unfold dateAndOwner
  rcases e : ls.findSome? (fun l =>
      let d := extract_effective_date l
      if d.isEmpty then none else some (d, ownerFromLine l d)) with _ | v
  · exact Or.inl rfl
  · right
    obtain ⟨l, hl, hf⟩ := List.exists_of_findSome?_eq_some e
    simp only at hf
    by_cases he : (extract_effective_date l).isEmpty = true
    · rw [if_pos he] at hf
      exact absurd hf (by simp)
    · rw [if_neg he] at hf
      obtain rfl := Option.some.inj hf
      exact ⟨l, hl, rfl, by simpa [List.isEmpty_iff] using he⟩

theorem parse_provider_block_zip (lines : List Line) (z c d : Line) :
    (parse_provider_block lines z c d).zipCode = z := by
  unfold parse_provider_block
  split <;> rfl

theorem parse_provider_block_license (lines : List Line) (z c d : Line) :
    (parse_provider_block lines z c d).licenseNumber = [] ∨
      licenseValid (parse_provider_block lines z c d).licenseNumber = true := by
  unfold parse_provider_block
  split
  · exact Or.inl rfl
  · by_cases he : extract_license_number (lines.headD []) = []
    · exact Or.inl he
    · exact Or.inr (extract_license_number_valid _ he)

theorem parse_provider_block_phone (lines : List Line) (z c d : Line) :
    (parse_provider_block lines z c d).phone = [] ∨
      phoneValid (parse_provider_block lines z c d).phone = true := by
  unfold parse_provider_block
  split
  · exact Or.inl rfl
  · rcases firstNonEmpty_cases extract_phone lines with he | ⟨l, _, heq, hne⟩
    · exact Or.inl he
    · refine Or.inr ?_
      show phoneValid (firstNonEmpty extract_phone lines) = true
      rw [heq]
      exact extract_phone_valid l hne

theorem parse_provider_block_date (lines : List Line) (z c d : Line) :
    (parse_provider_block lines z c d).effectiveDate = [] ∨
      dateValid (parse_provider_block lines z c d).effectiveDate = true := by
  unfold parse_provider_block
  split
  · exact Or.inl rfl
  · rcases dateAndOwner_cases lines with he | ⟨l, _, heq, hne⟩
    · exact Or.inl he
    · refine Or.inr ?_
      show dateValid (dateAndOwner lines).1 = true
      rw [heq]
      exact extract_effective_date_valid l hne

/-- C8.  In every record the parser produces, a nonempty license number
matches the five-family pattern, a nonempty phone matches `(DDD) DDD-DDDD`,
a nonempty effective date matches `DD/DD/DDDD`, and a nonempty zip code is
exactly five digits. -/
theorem claim8_formats (pages : List (List Line)) (dd : Line) (p : Provider)
    (h : p ∈ extract_providers_from_pdf pages dd) :
    (p.licenseNumber ≠ [] → licenseValid p.licenseNumber = true) ∧
    (p.phone ≠ [] → phoneValid p.phone = true) ∧
    (p.effectiveDate ≠ [] → dateValid p.effectiveDate = true) ∧
    (p.zipCode ≠ [] → zipValid p.zipCode = true) := by
  unfold extract_providers_from_pdf at h
  obtain ⟨cb, hcb, hf⟩ := List.mem_filterMap.mp h
  simp only at hf
  split at hf
  · exact absurd hf (by simp)
  · obtain rfl := Option.some.inj hf
    refine ⟨?_, ?_, ?_, ?_⟩
    · intro hne
      exact (parse_provider_block_license cb.2 cb.1.1 cb.1.2 dd).resolve_left hne
    · intro hne
      exact (parse_provider_block_phone cb.2 cb.1.1 cb.1.2 dd).resolve_left hne
    · intro hne
      exact (parse_provider_block_date cb.2 cb.1.1 cb.1.2 dd).resolve_left hne
    · intro hne
      have hz : zipOk (parse_provider_block cb.2 cb.1.1 cb.1.2 dd).zipCode = true := by
        rw [parse_provider_block_zip]
        exact extractBlocksAux_zipOk (pages.drop 1) ([], []) (by decide) cb hcb
      unfold zipOk at hz
      rw [Bool.or_eq_true] at hz
      rcases hz with hz | hz
      · exact absurd (List.isEmpty_iff.mp hz) hne
      · exact hz

/-- C8 (witness). -/
theorem claim8_witness :
    zipValid ((extract_providers_from_pdf pagesA []).headD goodProv).zipCode = true :=
  (claim8_formats pagesA [] ((extract_providers_from_pdf pagesA []).headD goodProv)
    (by decide)).2.2.2 (by decide)

/-- C4 (code evaluated at the failing input).  The facility-type extractor
checks `Child Care Center` before `School-Age-Only Child Care Center`, so a
line containing the school-age string is reported as the generic center type;
indeed the extractor can never return the school-age type on any line, since
the generic string is a substring of it. -/
theorem claim4_priority_bug :
    (extract_facility_type ("School-Age-Only Child Care Center".toList) =
      ("Child Care Center".toList) ∧
      ("Child Care Center".toList) ≠ ("School-Age-Only Child Care Center".toList)) ∧
    ∀ s : Line, extract_facility_type s ≠ ("School-Age-Only Child Care Center".toList) := by
  refine ⟨⟨by decide, by decide⟩, ?_⟩
  intro s
  unfold extract_facility_type FACILITY_TYPES
  simp only [List.find?]
  by_cases c1 : containsSub ("Family Child Care Home II".toList) s = true
  · simp only [c1]
    decide
  · simp only [c1, Bool.false_eq_true]
    by_cases c2 : containsSub ("Family Child Care Home I".toList) s = true
    · simp only [c2]
      decide
    · simp only [c2, Bool.false_eq_true]
      by_cases c3 : containsSub ("Child Care Center".toList) s = true
      · simp only [c3]
        decide
      · simp only [c3, Bool.false_eq_true]
        have c4 : containsSub ("School-Age-Only Child Care Center".toList) s = false := by
          cases hc : containsSub ("School-Age-Only Child Care Center".toList) s
          · rfl
          · exfalso
            have hinf := (containsSub_infix_iff _ s).mp hc
            have hsub : ("Child Care Center".toList) <:+:
                ("School-Age-Only Child Care Center".toList) := by
              have : containsSub ("Child Care Center".toList)
                  ("School-Age-Only Child Care Center".toList) = true := by decide
              exact (containsSub_infix_iff _ _).mp this
            have : containsSub ("Child Care Center".toList) s = true :=
              (containsSub_infix_iff _ s).mpr (hsub.trans hinf)
            rw [this] at c3
            exact c3 rfl
        simp only [c4, Bool.false_eq_true]
        by_cases c5 : containsSub ("Preschool".toList) s = true
        · simp only [c5]
          decide
        · simp only [c5, Bool.false_eq_true]
          decide

/-- C5 (counterexample).  On the boundary-scenario line the record's
`days_open` is empty, not `MTWTHF`: the days extractor only fires on the
literal label `Days of Week Open:`, which the line does not contain. -/
theorem claim5_counterexample :
    (parse_provider_block [sunnyLine] [] [] []).daysOpen ≠ ("MTWTHF".toList) := by
  decide

/-- C5 (amended).  Assembling the one-line block
`"Sunny Days CCC9578 123 Main St Capacity: 10 MTWTHF"` yields
`provider_name="Sunny Days"`, `license_number="CCC9578"`, `capacity="10"`,
`address="123 Main St"` — and `days_open=""`, because the trailing `MTWTHF`
is not preceded by the `Days of Week Open:` label the extractor requires. -/
theorem claim5_boundary_scenario :
    (parse_provider_block [sunnyLine] [] [] []).providerName = ("Sunny Days".toList) ∧
    (parse_provider_block [sunnyLine] [] [] []).licenseNumber = ("CCC9578".toList) ∧
    (parse_provider_block [sunnyLine] [] [] []).capacity = ("10".toList) ∧
    (parse_provider_block [sunnyLine] [] [] []).address = ("123 Main St".toList) ∧
    (parse_provider_block [sunnyLine] [] [] []).daysOpen = [] := by
  refine ⟨by decide, by decide, by decide, by decide, by decide⟩

theorem mem_ite_singleton {α : Type} (x t : α) (c : Prop) [Decidable c] :
    x ∈ (if c then [t] else ([] : List α)) ↔ c ∧ x = t := by
  split
  case isTrue h => simp [h]
  case isFalse h => simp [h]

/-- C9 (counterexample).  A record set of exactly 100 valid records does not
exceed the floor of 100, yet the validator reports no error at all: the code
errors only when the count is strictly below the floor. -/
theorem claim9_counterexample :
    ¬ (List.replicate 100 goodProv).length > MIN_EXPECTED_PROVIDERS ∧
    (test_data_quality (List.replicate 100 goodProv)).errors = [] ∧
    (test_data_quality (List.replicate 100 goodProv)).passed = true := by
  refine ⟨by decide, by decide, by decide⟩

/-- C9 (amended).  The validator reports a volume-sanity error exactly when
the total record count is strictly below the floor (default 100), and such a
record set fails overall; in particular a record set of size 5 fails with a
volume-sanity error. -/
theorem claim9_volume_floor (ps : List Provider) :
    (QError.volume ∈ (test_data_quality ps).errors ↔
      ps.length < MIN_EXPECTED_PROVIDERS) ∧
    (ps.length < MIN_EXPECTED_PROVIDERS → (test_data_quality ps).passed = false) := by
  constructor
  · unfold test_data_quality
    simp only [List.mem_append, mem_ite_singleton]
    simp
  · intro hn
    unfold test_data_quality
    simp [hn]

/-- C9 (witness). -/
theorem claim9_witness :
    QError.volume ∈ (test_data_quality (List.replicate 5 goodProv)).errors ∧
    (test_data_quality (List.replicate 5 goodProv)).passed = false :=
  ⟨(claim9_volume_floor (List.replicate 5 goodProv)).1.mpr (by decide),
   (claim9_volume_floor (List.replicate 5 goodProv)).2 (by decide)⟩

/-- C10.  The first page never contributes: replacing page 1 by any other
page leaves the parse unchanged, and a one-page document yields no records at
all. -/
theorem claim10_first_page_skipped :
    (∀ (p q : List Line) (rest : List (List Line)) (dd : Line),
      extract_providers_from_pdf (p :: rest) dd =
        extract_providers_from_pdf (q :: rest) dd) ∧
    (∀ (p : List Line) (dd : Line), extract_providers_from_pdf [p] dd = []) :=
  ⟨fun _ _ _ _ => rfl, fun _ _ => rfl⟩

end Roster
